import Mathlib

/-!
Shallow embedding of the fogbank-scripts repository: `check_slaves.py`
(cluster pre-flight validator: version probes, version-map aggregation,
reconciliation, report writer, clock-skew check) and `cpu_ram_monitor.py`
(self-monitoring HTTP push service).  Python dicts are modelled as
association lists in insertion order, raised exceptions and `sys.exit(1)`
as `Except` errors, and the regular-expression probes as executable
character-list scanners faithful to `re.findall` with `re.MULTILINE`.
-/

namespace CheckSlaves

/-- Python dict from version string to list of hostnames, modelled as an
association list in insertion order. -/
abbrev VersionMap := List (String × List String)

/-- Keys of a version map, in order. -/
def keysOf (m : VersionMap) : List String := m.map Prod.fst

/-- Read of `dic[k]`: value of the first entry with the given key. -/
def lookupV (k : String) : VersionMap → Option (List String)
  | [] => none
  | (k2, v) :: t => if k = k2 then some v else lookupV k t

/-- Split a list at every occurrence of `sep`, dropping the separators;
`splitOnElem '\n'` on characters models splitting a text into lines. -/
def splitOnElem {α : Type} [DecidableEq α] (sep : α) : List α → List (List α)
  | [] => [[]]
  | c :: t =>
    if c = sep then [] :: splitOnElem sep t
    else
      match splitOnElem sep t with
      | [] => [[c]]
      | g :: gs => (c :: g) :: gs

/-- Scan for the first occurrence of `pat` as a contiguous sublist and return
what follows it, or `none` when `pat` never occurs.  This models where a
regular-expression literal first matches inside one line. -/
def stripAfterFirst (pat : List Char) : List Char → Option (List Char)
  | [] => if pat.isEmpty then some [] else none
  | c :: t =>
    if pat.isPrefixOf (c :: t) then some (List.drop pat.length (c :: t))
    else stripAfterFirst pat t

/-- Captured group of `Hadoop (.*)$` on one line: everything after the first
occurrence of the literal `Hadoop `; `(.*)` then runs to the end of the line. -/
def hadoopLineGroup (line : List Char) : Option (List Char) :=
  stripAfterFirst ("Hadoop ".data) line

/-- Captured group of `version "(.*)"$` on one line: the line must end in a
double quote strictly after the first occurrence of the literal `version "`;
the greedy group then spans up to that final quote. -/
def javaLineGroup (line : List Char) : Option (List Char) :=
  match stripAfterFirst ("version \"".data) line with
  | none => none
  | some rest =>
    if rest.getLast? = some '"' then some rest.dropLast else none

/-- All captured groups of `re.findall(r'Hadoop (.*)$', output, re.MULTILINE)`
in scanning order (one group per line containing the marker). -/
def findAllHadoop (output : String) : List String :=
  ((splitOnElem '\n' output.data).filterMap hadoopLineGroup).map List.asString

/-- All captured groups of `re.findall(r'version "(.*)"$', output, re.MULTILINE)`
in scanning order (one group per line containing the marker). -/
def findAllJava (output : String) : List String :=
  ((splitOnElem '\n' output.data).filterMap javaLineGroup).map List.asString

/-- Sentinel the probes return when the pattern has no match (`return ""`). -/
def failSentinel : String := ""

/-- Source `get_java_version`: first captured group of the java version
pattern, or the sentinel when there is no match. -/
def get_java_version (output : String) : String :=
  match findAllJava output with
  | [] => failSentinel
  | v :: _ => v

/-- Source `get_hadoop_version`: first captured group of the hadoop version
pattern, or the sentinel when there is no match. -/
def get_hadoop_version (output : String) : String :=
  match findAllHadoop output with
  | [] => failSentinel
  | v :: _ => v

example : get_hadoop_version "Hadoop 2.7.3\nSome other line" = "2.7.3" := by decide

example : get_java_version "java version \"1.8.0_151\"\nmore" = "1.8.0_151" := by decide

example : get_hadoop_version "no marker here" = "" := by decide

example : get_hadoop_version "Hadoop " = "" := by decide

example : findAllHadoop "Hadoop " = [""] := by decide

/-- Lexicographic comparison of character lists by code point, the order
Python's `sorted` uses on the hostname strings. -/
def leChars : List Char → List Char → Bool
  | [], _ => true
  | _ :: _, [] => false
  | a :: as, b :: bs =>
    if a.val.toNat < b.val.toNat then true
    else if b.val.toNat < a.val.toNat then false
    else leChars as bs

/-- Lexicographic comparison of strings by code point. -/
def strLe (a b : String) : Bool := leChars a.data b.data

/-- Insert a string into a lexicographically sorted list, keeping it sorted. -/
def orderedInsertH (h : String) : List String → List String
  | [] => [h]
  | x :: xs => if strLe h x then h :: x :: xs else x :: orderedInsertH h xs

/-- Python `sorted` on a list of strings: lexicographic order. -/
def sortHosts : List String → List String
  | [] => []
  | x :: xs => orderedInsertH x (sortHosts xs)

/-- Python `dic[k].append(h)`: extend in place the value of the first entry
with key `k` (a missing key would raise; every use is guarded). -/
def listAppendAt (k h : String) : VersionMap → VersionMap
  | [] => []
  | (k2, v) :: t =>
    if k2 = k then (k2, v ++ [h]) :: t else (k2, v) :: listAppendAt k h t

/-- Python `dic[k] = v`: overwrite the first entry with key `k` in place,
or append a new entry at the end when the key is absent. -/
def setKey (k : String) (v : List String) : VersionMap → VersionMap
  | [] => [(k, v)]
  | (k2, v2) :: t =>
    if k2 = k then (k, v) :: t else (k2, v2) :: setKey k v t

/-- Source `add_to_dict`: an empty version string sends the host to the
`"none"` bucket; otherwise the host joins the bucket named by the version,
which is created with the host as sole member when absent. -/
def add_to_dict (version host : String) (dic : VersionMap) : VersionMap :=
  if version = "" then listAppendAt "none" host dic
  else if lookupV version dic = none then setKey version [host] dic
  else listAppendAt version host dic

/-- Python `del data[k]`: remove the first entry with key `k`, or `none`
(a `KeyError`) when the key is absent. -/
def delKeyFirst (k : String) : VersionMap → Option VersionMap
  | [] => none
  | (k2, v) :: t =>
    if k2 = k then some t
    else (delKeyFirst k t).map (fun t2 => (k2, v) :: t2)

/-- Separator line written after each version block of the report. -/
def sepLine : String := "---------------------------------------------------"

/-- Lines of the report for one version bucket: a `Version <v>:` header, then
each member hostname in lexicographic order. -/
def blockLines (p : String × List String) : List (List Char) :=
  ("Version " ++ p.1 ++ ":").data :: (sortHosts p.2).map String.data

/-- Characters of the rendered report: every block's lines, each line closed
by a newline, each block closed by the separator line. -/
def renderChars (m : VersionMap) : List Char :=
  m.flatMap (fun p =>
    (blockLines p).flatMap (fun l => l ++ ['\n']) ++ sepLine.data ++ ['\n'])

/-- Text the report writer produces for a map (after it removed `"none"`). -/
def renderMap (m : VersionMap) : String := (renderChars m).asString

/-- Source `write_to_file`: `del data["none"]` first, which raises `KeyError`
before anything is written when the key is absent; otherwise the remaining
map is rendered.  The result carries the post-state of the caller's dict
(the deletion mutates it) together with the file content. -/
def write_to_file (m : VersionMap) : Except String (VersionMap × String) :=
  match delKeyFirst "none" m with
  | none => Except.error "KeyError"
  | some m2 => Except.ok (m2, renderMap m2)

/-- Reconciliation guard from `check_versions`: reading `m["none"]` raises
`KeyError` when absent; a non-empty bucket aborts the run via `exit_with_msg`
with the sorted bucket joined by `sep` after `msgStart`; otherwise the map is
passed on unchanged.  `check_versions` runs it with
`msgStart = "Please check the Java installation on these nodes: "`, `sep = ","`
for the java map and the hadoop message with `sep = ", "` for the hadoop map. -/
def reconcile (msgStart sep : String) (m : VersionMap) : Except String VersionMap :=
  match lookupV "none" m with
  | none => Except.error "KeyError"
  | some bucket =>
    if bucket = [] then Except.ok m
    else Except.error (msgStart ++ String.intercalate sep (sortHosts bucket))

/-- Seed map built in `check_versions`: the Python dict literal
`{ver : [masterHost], "none" : []}`; when `ver` is literally `"none"` the
second key overwrites the first. -/
def seedMap (ver masterHost : String) : VersionMap :=
  if ver = "none" then [("none", [])] else [(ver, [masterHost]), ("none", [])]

/-- Fan-out phase for one map: each worker's probe thread either completes
its scripted dialogue and inserts its extracted version through
`add_to_dict` (`oracle w = some v`, with `v = ""` when extraction failed),
or dies from an uncaught exception before it reaches the insertions —
`check_slave_vers` has no handler, so `ssh.connect` raising, or the
`which hadoop` read yielding no second line and making
`output.split("\n")[1]` raise `IndexError`, kills the daemon thread — and
then inserts nothing (`oracle w = none`); the join still returns.  `order`
is the interleaving in which the threads acquired the map's lock. -/
def inventoryMap (ver masterHost : String) (oracle : String → Option String)
    (order : List String) : VersionMap :=
  order.foldl (fun m w =>
    match oracle w with
    | none => m
    | some v => add_to_dict v w m) (seedMap ver masterHost)

/-- Total number of hostname entries in a map, summed across buckets. -/
def totalCount (m : VersionMap) : Nat := (m.map (fun p => p.2.length)).sum

/-- Clock-skew flag from `check_time_skew`: `abs(time_skew) >= 20000`. -/
def skewFlagged (d : Int) : Bool := 20000 ≤ d.natAbs

/-- Source `check_time_skew` decision over the measured differences: every
worker is examined, and the run aborts afterwards when any was flagged. -/
def check_time_skew (skews : List (String × Int)) : Except String Unit :=
  if skews.any (fun p => skewFlagged p.2) then
    Except.error "The host(s) displayed in red means that time difference is greater than the threshold (20 seconds)."
  else Except.ok ()

/-! Lemmas about the lexicographic comparator and the sort. -/

theorem leChars_total : ∀ (a b : List Char), leChars a b = true ∨ leChars b a = true
  | [], _ => Or.inl rfl
  | _ :: _, [] => Or.inr rfl
  | a :: as, b :: bs => by
    rcases Nat.lt_trichotomy a.val.toNat b.val.toNat with h | h | h
    · left; simp [leChars, h]
    · rcases leChars_total as bs with ih | ih
      · left; simp [leChars, h, Nat.lt_irrefl, ih]
      · right; simp [leChars, h, Nat.lt_irrefl, ih]
    · right; simp [leChars, h]

theorem leChars_trans :
    ∀ (a b c : List Char), leChars a b = true → leChars b c = true → leChars a c = true
  | [], _, _, _, _ => rfl
  | _ :: _, [], _, h1, _ => by simp [leChars] at h1
  | _ :: _, _ :: _, [], _, h2 => by simp [leChars] at h2
  | a :: as, b :: bs, c :: cs, h1, h2 => by
    simp only [leChars] at h1 h2 ⊢
    by_cases hab : a.val.toNat < b.val.toNat
    · by_cases hbc : b.val.toNat < c.val.toNat
      · simp [Nat.lt_trans hab hbc]
      · simp only [hbc, if_false] at h2
        by_cases hcb : c.val.toNat < b.val.toNat
        · simp [hcb] at h2
        · have : b.val.toNat = c.val.toNat := Nat.le_antisymm (Nat.le_of_not_lt hcb) (Nat.le_of_not_lt hbc)
          simp [this ▸ hab]
    · simp only [hab, if_false] at h1
      by_cases hba : b.val.toNat < a.val.toNat
      · simp [hba] at h1
      · have hfst : a.val.toNat = b.val.toNat := Nat.le_antisymm (Nat.le_of_not_lt hba) (Nat.le_of_not_lt hab)
        by_cases hbc : b.val.toNat < c.val.toNat
        · simp [hfst ▸ hbc]
        · simp only [hbc, if_false] at h2
          by_cases hcb : c.val.toNat < b.val.toNat
          · simp [hcb] at h2
          · have hsnd : b.val.toNat = c.val.toNat := Nat.le_antisymm (Nat.le_of_not_lt hcb) (Nat.le_of_not_lt hbc)
            have hac : a.val.toNat = c.val.toNat := hfst.trans hsnd
            rw [if_neg hba] at h1
            rw [if_neg hcb] at h2
            simp [hac, Nat.lt_irrefl, leChars_trans as bs cs h1 h2]

theorem strLe_total (a b : String) : strLe a b = true ∨ strLe b a = true :=
  leChars_total a.data b.data

theorem strLe_trans {a b c : String} (h1 : strLe a b = true) (h2 : strLe b c = true) :
    strLe a c = true :=
  leChars_trans a.data b.data c.data h1 h2

theorem orderedInsertH_perm (h : String) :
    ∀ l : List String, (orderedInsertH h l).Perm (h :: l)
  | [] => List.Perm.refl _
  | x :: xs => by
    by_cases hc : strLe h x = true
    · simp [orderedInsertH, hc]
    · simp only [orderedInsertH, hc, if_false]
      exact (((orderedInsertH_perm h xs).cons x).trans (List.Perm.swap h x xs))

theorem sortHosts_perm : ∀ l : List String, (sortHosts l).Perm l
  | [] => List.Perm.refl _
  | x :: xs => (orderedInsertH_perm x (sortHosts xs)).trans ((sortHosts_perm xs).cons x)

theorem pairwise_orderedInsertH (h : String) :
    ∀ l : List String, l.Pairwise (fun a b => strLe a b = true) →
      (orderedInsertH h l).Pairwise (fun a b => strLe a b = true)
  | [], _ => by simp [orderedInsertH]
  | x :: xs, hl => by
    rcases List.pairwise_cons.mp hl with ⟨hx, hxs⟩
    by_cases hc : strLe h x = true
    · simp only [orderedInsertH, hc, if_true]
      refine List.pairwise_cons.mpr ⟨?_, hl⟩
      intro y hy
      rcases List.mem_cons.mp hy with rfl | hy2
      · exact hc
      · exact strLe_trans hc (hx y hy2)
    · simp only [orderedInsertH, hc, if_false]
      refine List.pairwise_cons.mpr ⟨?_, pairwise_orderedInsertH h xs hxs⟩
      intro y hy
      rcases List.mem_cons.mp ((orderedInsertH_perm h xs).mem_iff.mp hy) with rfl | hy2
      · rcases strLe_total y x with ht | ht
        · exact absurd ht hc
        · exact ht
      · exact hx y hy2

theorem sortHosts_pairwise :
    ∀ l : List String, (sortHosts l).Pairwise (fun a b => strLe a b = true)
  | [] => List.Pairwise.nil
  | x :: xs => pairwise_orderedInsertH x (sortHosts xs) (sortHosts_pairwise xs)

theorem sortHosts_mem (l : List String) (y : String) : y ∈ sortHosts l ↔ y ∈ l :=
  (sortHosts_perm l).mem_iff

theorem sortHosts_count (l : List String) (y : String) :
    (sortHosts l).count y = l.count y :=
  (sortHosts_perm l).count_eq y

theorem sortHosts_nodup {l : List String} (h : l.Nodup) : (sortHosts l).Nodup :=
  ((sortHosts_perm l).nodup_iff).mpr h

/-! Lemmas about the dict operations. -/

theorem totalCount_append (a b : VersionMap) :
    totalCount (a ++ b) = totalCount a + totalCount b := by
  simp [totalCount]

theorem lookupV_eq_none_iff (k : String) :
    ∀ m : VersionMap, lookupV k m = none ↔ k ∉ keysOf m
  | [] => by simp [lookupV, keysOf]
  | (k2, v) :: t => by
    by_cases h : k = k2
    · subst h; simp [lookupV, keysOf]
    · simp [lookupV, keysOf, h, lookupV_eq_none_iff k t]

theorem lookupV_isSome_of_mem {k : String} {m : VersionMap} (h : k ∈ keysOf m) :
    ∃ v, lookupV k m = some v := by
  rcases hv : lookupV k m with _ | v
  · exact absurd h ((lookupV_eq_none_iff k m).mp hv)
  · exact ⟨v, rfl⟩

theorem keysOf_listAppendAt (k h : String) :
    ∀ m : VersionMap, keysOf (listAppendAt k h m) = keysOf m
  | [] => rfl
  | (k2, v) :: t => by
    by_cases hk : k2 = k
    · simp [listAppendAt, hk, keysOf]
    · have ih := keysOf_listAppendAt k h t
      simp only [keysOf] at ih
      simp [listAppendAt, hk, keysOf, ih]

theorem totalCount_listAppendAt (k h : String) :
    ∀ m : VersionMap, k ∈ keysOf m →
      totalCount (listAppendAt k h m) = totalCount m + 1
  | [], hm => by simp [keysOf] at hm
  | (k2, v) :: t, hm => by
    by_cases hk : k2 = k
    · simp [listAppendAt, hk, totalCount]
      omega
    · have ht : k ∈ keysOf t := by
        rcases List.mem_cons.mp hm with h2 | h2
        · exact absurd h2.symm hk
        · exact h2
      simp [listAppendAt, hk, totalCount]
      have := totalCount_listAppendAt k h t ht
      simp [totalCount] at this
      omega

theorem lookupV_listAppendAt_self (k h : String) :
    ∀ (m : VersionMap) (v : List String), lookupV k m = some v →
      lookupV k (listAppendAt k h m) = some (v ++ [h])
  | [], v, hv => by simp [lookupV] at hv
  | (k2, w) :: t, v, hv => by
    by_cases hk : k2 = k
    · subst hk
      simp [lookupV] at hv
      simp [listAppendAt, lookupV, hv]
    · have hne : k ≠ k2 := fun he => hk he.symm
      simp [lookupV, hne] at hv
      simp [listAppendAt, hk, lookupV, hne, lookupV_listAppendAt_self k h t v hv]

theorem lookupV_listAppendAt_ne (k h k' : String) (hne : k' ≠ k) :
    ∀ m : VersionMap, lookupV k' (listAppendAt k h m) = lookupV k' m
  | [] => rfl
  | (k2, w) :: t => by
    by_cases hk : k2 = k
    · subst hk
      simp [listAppendAt, lookupV, hne]
    · simp [listAppendAt, hk, lookupV, lookupV_listAppendAt_ne k h k' hne t]

theorem setKey_of_not_mem (k : String) (v : List String) :
    ∀ m : VersionMap, k ∉ keysOf m → setKey k v m = m ++ [(k, v)]
  | [], _ => rfl
  | (k2, w) :: t, hm => by
    have hk : k2 ≠ k := fun he => hm (by simp [keysOf, he])
    have ht : k ∉ keysOf t := fun h2 => hm (by simp [keysOf] at h2 ⊢; exact Or.inr h2)
    simp [setKey, hk, setKey_of_not_mem k v t ht]

theorem lookupV_append_sing_self (k : String) (v : List String) :
    ∀ m : VersionMap, k ∉ keysOf m → lookupV k (m ++ [(k, v)]) = some v
  | [], _ => by simp [lookupV]
  | (k2, w) :: t, hm => by
    have hk : k ≠ k2 := fun he => hm (by simp [keysOf, he])
    have ht : k ∉ keysOf t := fun h2 => hm (by simp [keysOf] at h2 ⊢; exact Or.inr h2)
    simp [lookupV, hk, lookupV_append_sing_self k v t ht]

theorem lookupV_append_sing_ne (k k' : String) (v : List String) (hne : k' ≠ k) :
    ∀ m : VersionMap, lookupV k' (m ++ [(k, v)]) = lookupV k' m
  | [] => by simp [lookupV, hne]
  | (k2, w) :: t => by
    by_cases hk : k' = k2
    · simp [lookupV, hk]
    · simp [lookupV, hk, lookupV_append_sing_ne k k' v hne t]

theorem mem_keysOf_of_lookup {k : String} {m : VersionMap} {v : List String}
    (h : lookupV k m = some v) : k ∈ keysOf m := by
  by_contra hmem
  rw [(lookupV_eq_none_iff k m).mpr hmem] at h
  exact Option.noConfusion h

theorem keysOf_add_to_dict_mem {m : VersionMap} (ver hst : String)
    (hm : "none" ∈ keysOf m) : "none" ∈ keysOf (add_to_dict ver hst m) := by
  by_cases hv : ver = ""
  · simpa [add_to_dict, hv, keysOf_listAppendAt] using hm
  · rcases hl : lookupV ver m with _ | v
    · rw [add_to_dict, if_neg hv, hl, if_pos rfl,
        setKey_of_not_mem ver [hst] m ((lookupV_eq_none_iff ver m).mp hl)]
      simp only [keysOf, List.map_append, List.mem_append]
      exact Or.inl hm
    · simpa [add_to_dict, hv, hl, keysOf_listAppendAt] using hm

theorem totalCount_add_to_dict {m : VersionMap} (ver hst : String)
    (hm : "none" ∈ keysOf m) :
    totalCount (add_to_dict ver hst m) = totalCount m + 1 := by
  by_cases hv : ver = ""
  · rw [add_to_dict, if_pos hv]
    exact totalCount_listAppendAt "none" hst m hm
  · rcases hl : lookupV ver m with _ | v
    · rw [add_to_dict, if_neg hv, hl, if_pos rfl,
        setKey_of_not_mem ver [hst] m ((lookupV_eq_none_iff ver m).mp hl),
        totalCount_append]
      simp [totalCount]
    · rw [add_to_dict, if_neg hv, hl]
      simp only [reduceCtorEq, if_false]
      exact totalCount_listAppendAt ver hst m (mem_keysOf_of_lookup hl)

theorem add_to_dict_lookup_target {m : VersionMap} (ver hst : String)
    (hm : "none" ∈ keysOf m) :
    lookupV (if ver = "" then "none" else ver) (add_to_dict ver hst m) =
      some ((lookupV (if ver = "" then "none" else ver) m).getD [] ++ [hst]) := by
  by_cases hv : ver = ""
  · rcases lookupV_isSome_of_mem hm with ⟨v, hl⟩
    rw [if_pos hv, add_to_dict, if_pos hv, lookupV_listAppendAt_self "none" hst m v hl, hl]
    rfl
  · rcases hl : lookupV ver m with _ | v
    · rw [if_neg hv, add_to_dict, if_neg hv, hl, if_pos rfl,
        setKey_of_not_mem ver [hst] m ((lookupV_eq_none_iff ver m).mp hl),
        lookupV_append_sing_self ver [hst] m ((lookupV_eq_none_iff ver m).mp hl)]
      rfl
    · rw [if_neg hv, add_to_dict, if_neg hv, hl]
      simp only [reduceCtorEq, if_false]
      rw [lookupV_listAppendAt_self ver hst m v hl]
      rfl

theorem add_to_dict_lookup_ne {m : VersionMap} (ver hst k : String)
    (hk : k ≠ (if ver = "" then "none" else ver)) :
    lookupV k (add_to_dict ver hst m) = lookupV k m := by
  by_cases hv : ver = ""
  · rw [if_pos hv] at hk
    rw [add_to_dict, if_pos hv]
    exact lookupV_listAppendAt_ne "none" hst k hk m
  · rw [if_neg hv] at hk
    rcases hl : lookupV ver m with _ | v
    · rw [add_to_dict, if_neg hv, hl, if_pos rfl,
        setKey_of_not_mem ver [hst] m ((lookupV_eq_none_iff ver m).mp hl)]
      exact lookupV_append_sing_ne ver k [hst] hk m
    · rw [add_to_dict, if_neg hv, hl]
      simp only [reduceCtorEq, if_false]
      exact lookupV_listAppendAt_ne ver hst k hk m

theorem totalCount_foldl (oracle : String → Option String) :
    ∀ (ws : List String) (m : VersionMap), "none" ∈ keysOf m →
      (∀ w ∈ ws, oracle w ≠ none) →
      totalCount (ws.foldl (fun m2 w =>
        match oracle w with
        | none => m2
        | some v => add_to_dict v w m2) m) = totalCount m + ws.length
  | [], m, _, _ => by simp
  | w :: ws, m, hm, hall => by
    rcases ho : oracle w with _ | v
    · exact absurd ho (hall w (by simp))
    · simp only [List.foldl_cons, List.length_cons, ho]
      rw [totalCount_foldl oracle ws (add_to_dict v w m)
          (keysOf_add_to_dict_mem v w hm) (fun x hx => hall x (by simp [hx])),
        totalCount_add_to_dict v w hm]
      omega

theorem keysOf_seedMap_none (ver mh : String) : "none" ∈ keysOf (seedMap ver mh) := by
  by_cases h : ver = "none" <;> simp [seedMap, h, keysOf]

theorem totalCount_seedMap (ver mh : String) (h : ver ≠ "none") :
    totalCount (seedMap ver mh) = 1 := by
  simp [seedMap, h, totalCount]

/-! Lemmas about deletion, modelling `del data["none"]`. -/

/-- Keys of the dict are pairwise distinct, as in a Python dict. -/
abbrev keysNodup (m : VersionMap) : Prop := (keysOf m).Nodup

theorem delKeyFirst_eq_none_iff (k : String) :
    ∀ m : VersionMap, delKeyFirst k m = none ↔ k ∉ keysOf m
  | [] => by simp [delKeyFirst, keysOf]
  | (k2, v) :: t => by
    by_cases h : k2 = k
    · subst h; simp [delKeyFirst, keysOf]
    · have hne : ¬k = k2 := fun he => h he.symm
      simp [delKeyFirst, keysOf, h, hne, Option.map_eq_none', delKeyFirst_eq_none_iff k t]

theorem delKeyFirst_perm (k : String) :
    ∀ (m m2 : VersionMap), delKeyFirst k m = some m2 →
      ∃ v, lookupV k m = some v ∧ m.Perm ((k, v) :: m2)
  | [], m2, h => by simp [delKeyFirst] at h
  | (k2, v) :: t, m2, h => by
    by_cases hk : k2 = k
    · subst hk
      simp only [delKeyFirst, if_true, eq_self_iff_true, ite_true, Option.some.injEq] at h
      subst h
      exact ⟨v, by simp [lookupV], List.Perm.refl _⟩
    · simp only [delKeyFirst, hk, if_false, Option.map_eq_some'] at h
      rcases h with ⟨t2, ht2, hm2⟩
      rcases delKeyFirst_perm k t t2 ht2 with ⟨w, hw, hperm⟩
      refine ⟨w, ?_, ?_⟩
      · have hne : ¬k = k2 := fun he => hk he.symm
        simp [lookupV, hne, hw]
      · subst hm2
        exact (hperm.cons (k2, v)).trans (List.Perm.swap (k, w) (k2, v) t2)

theorem delKeyFirst_lookup_ne (k k' : String) (hne : k' ≠ k) :
    ∀ (m m2 : VersionMap), delKeyFirst k m = some m2 →
      lookupV k' m2 = lookupV k' m
  | [], m2, h => by simp [delKeyFirst] at h
  | (k2, v) :: t, m2, h => by
    by_cases hk : k2 = k
    · subst hk
      simp only [delKeyFirst, if_true, eq_self_iff_true, ite_true, Option.some.injEq] at h
      subst h
      have : ¬k' = k2 := hne
      simp [lookupV, this]
    · simp only [delKeyFirst, hk, if_false, Option.map_eq_some'] at h
      rcases h with ⟨t2, ht2, hm2⟩
      subst hm2
      by_cases he : k' = k2
      · simp [lookupV, he]
      · simp [lookupV, he, delKeyFirst_lookup_ne k k' hne t t2 ht2]

theorem delKeyFirst_lookup_self (k : String) :
    ∀ (m m2 : VersionMap), keysNodup m → delKeyFirst k m = some m2 →
      lookupV k m2 = none
  | [], m2, _, h => by simp [delKeyFirst] at h
  | (k2, v) :: t, m2, hnd, h => by
    have hnd2 := hnd
    simp only [keysNodup, keysOf, List.map_cons, List.nodup_cons] at hnd2
    by_cases hk : k2 = k
    · subst hk
      simp only [delKeyFirst, if_true, eq_self_iff_true, ite_true, Option.some.injEq] at h
      subst h
      exact (lookupV_eq_none_iff k2 t).mpr hnd2.1
    · simp only [delKeyFirst, hk, if_false, Option.map_eq_some'] at h
      rcases h with ⟨t2, ht2, hm2⟩
      subst hm2
      have hne : ¬k = k2 := fun he => hk he.symm
      simp only [lookupV, hne, if_false]
      exact delKeyFirst_lookup_self k t t2 hnd2.2 ht2

theorem mem_keysOf_of_pair {k : String} {v : List String} {m : VersionMap}
    (h : (k, v) ∈ m) : k ∈ keysOf m :=
  List.mem_map.mpr ⟨(k, v), h, rfl⟩

/-! Re-parsing the rendered report. -/

/-- Characters of the separator line. -/
def dashChars : List Char := sepLine.data

/-- Recover one `(version, hostnames)` pair from the lines of one report
block: strip the `Version ` prefix and `:` suffix of the header line, and
read every following line as one hostname. -/
def parseBlockGroup : List (List Char) → String × List String
  | [] => ("", [])
  | h :: hosts => (((h.drop 8).dropLast).asString, hosts.map List.asString)

/-- Re-parse a rendered report: split into lines, group the lines at each
separator line, drop the trailing remainder, and read each group as one
version block. -/
def parseReport (t : String) : VersionMap :=
  ((splitOnElem dashChars (splitOnElem '\n' t.data)).dropLast).map parseBlockGroup

/-- A map entry the text report format can represent unambiguously: no
newline inside the version or a hostname, and no hostname that spells the
separator line. -/
abbrev wellFormedEntry (p : String × List String) : Prop :=
  '\n' ∉ p.1.data ∧ ∀ h ∈ p.2, '\n' ∉ h.data ∧ h ≠ sepLine

/-- Lines of the report: every block's lines, each block closed by the
separator line. -/
def linesOf (m : VersionMap) : List (List Char) :=
  m.flatMap (fun p => blockLines p ++ [dashChars])

theorem splitOnElem_append_sep {α : Type} [DecidableEq α] (sep : α) :
    ∀ (a r : List α), sep ∉ a →
      splitOnElem sep (a ++ sep :: r) = a :: splitOnElem sep r
  | [], r, _ => by simp [splitOnElem]
  | c :: a2, r, ha => by
    have hc : ¬c = sep := fun he => ha (by simp [he])
    have ha2 : sep ∉ a2 := fun h2 => ha (by simp [h2])
    simp only [List.cons_append, splitOnElem, hc, if_false]
    rw [show splitOnElem sep (a2.append (sep :: r)) = a2 :: splitOnElem sep r from
      splitOnElem_append_sep sep a2 r ha2]

theorem flatMap_lines_split :
    ∀ L : List (List Char), (∀ l ∈ L, '\n' ∉ l) →
      splitOnElem '\n' (L.flatMap (fun l => l ++ ['\n'])) = L ++ [[]]
  | [], _ => rfl
  | l :: L2, hL => by
    have hl : '\n' ∉ l := hL l (by simp)
    have hL2 : ∀ x ∈ L2, '\n' ∉ x := fun x hx => hL x (by simp [hx])
    simp only [List.flatMap_cons, List.append_assoc, List.singleton_append]
    rw [splitOnElem_append_sep '\n' l _ hl, flatMap_lines_split L2 hL2]
    rfl

theorem renderChars_eq_linesOf (m : VersionMap) :
    renderChars m = (linesOf m).flatMap (fun l => l ++ ['\n']) := by
  induction m with
  | nil => rfl
  | cons p m2 ih =>
    simp only [renderChars, linesOf, List.flatMap_cons, List.flatMap_append] at ih ⊢
    rw [ih]
    simp [dashChars, List.append_assoc]

theorem blockLines_no_dash {p : String × List String} (hp : wellFormedEntry p) :
    dashChars ∉ blockLines p := by
  intro hmem
  rcases List.mem_cons.mp hmem with he | hh
  · have he2 := he.symm
    rw [String.data_append, String.data_append] at he2
    have h1 : "Version ".data = 'V' :: "ersion ".data := rfl
    have h2 : dashChars = '-' :: "--------------------------------------------------".data := rfl
    rw [h1, h2, List.cons_append, List.cons_append] at he2
    injection he2 with h3 _
    exact absurd h3 (by decide)
  · rcases List.mem_map.mp hh with ⟨h, hmem2, hdata⟩
    have hmem3 : h ∈ p.2 := (sortHosts_mem p.2 h).mp hmem2
    have h2 : h.data = sepLine.data := hdata
    exact (hp.2 h hmem3).2 (congrArg List.asString h2)

theorem linesOf_no_newline {m : VersionMap} (wf : ∀ p ∈ m, wellFormedEntry p) :
    ∀ l ∈ linesOf m, '\n' ∉ l := by
  intro l hl
  rcases List.mem_flatMap.mp hl with ⟨p, hp, hlp⟩
  rcases List.mem_append.mp hlp with hb | hd
  · rcases List.mem_cons.mp hb with he | hh
    · subst he
      rw [String.data_append, String.data_append]
      intro hmem
      rcases List.mem_append.mp hmem with h2 | h2
      · rcases List.mem_append.mp h2 with h3 | h3
        · exact (by decide : '\n' ∉ "Version ".data) h3
        · exact (wf p hp).1 h3
      · exact (by decide : '\n' ∉ ":".data) h2
    · rcases List.mem_map.mp hh with ⟨h, hmem2, hdata⟩
      subst hdata
      exact ((wf p hp).2 h ((sortHosts_mem p.2 h).mp hmem2)).1
  · have : l = dashChars := by simpa using hd
    subst this
    decide

theorem splitOn_dash_linesOf :
    ∀ m : VersionMap, (∀ p ∈ m, wellFormedEntry p) →
      splitOnElem dashChars (linesOf m ++ [[]]) = m.map blockLines ++ [[[]]]
  | [], _ => rfl
  | p :: m2, wf => by
    have hwf : wellFormedEntry p := wf p (by simp)
    have hwf2 : ∀ q ∈ m2, wellFormedEntry q := fun q hq => wf q (by simp [hq])
    have hshape : linesOf (p :: m2) ++ [[]] =
        blockLines p ++ dashChars :: (linesOf m2 ++ [[]]) := by
      simp [linesOf, List.flatMap_cons, List.append_assoc]
    rw [hshape, splitOnElem_append_sep dashChars (blockLines p) _ (blockLines_no_dash hwf),
      splitOn_dash_linesOf m2 hwf2]
    rfl

theorem parseBlockGroup_blockLines (p : String × List String) :
    parseBlockGroup (blockLines p) = (p.1, sortHosts p.2) := by
  simp only [blockLines, parseBlockGroup, Prod.mk.injEq]
  constructor
  · rw [String.data_append, String.data_append]
    have h8 : ("Version ".data).length = 8 := rfl
    have hcolon : (":".data) = [':'] := rfl
    rw [hcolon, List.append_assoc, ← h8, List.drop_left, List.dropLast_concat]
    rfl
  · rw [List.map_map]
    exact List.map_id'' (fun s => rfl) _

theorem parseReport_renderMap (m : VersionMap) (wf : ∀ p ∈ m, wellFormedEntry p) :
    parseReport (renderMap m) = m.map (fun p => (p.1, sortHosts p.2)) := by
  have hdata : ((renderChars m).asString).data = renderChars m := rfl
  rw [parseReport, renderMap, hdata, renderChars_eq_linesOf,
    flatMap_lines_split _ (linesOf_no_newline wf), splitOn_dash_linesOf m wf,
    List.dropLast_concat, List.map_map]
  exact List.map_congr_left (fun p _ => parseBlockGroup_blockLines p)

theorem lookupV_of_pair_nodup {k : String} {v : List String} :
    ∀ m : VersionMap, keysNodup m → (k, v) ∈ m → lookupV k m = some v
  | [], _, h => by simp at h
  | (k2, w) :: t, hnd, h => by
    have hnd2 := hnd
    simp only [keysNodup, keysOf, List.map_cons, List.nodup_cons] at hnd2
    rcases List.mem_cons.mp h with he | ht
    · rw [Prod.mk.injEq] at he
      rcases he with ⟨he1, he2⟩
      subst he1; subst he2
      simp [lookupV]
    · have hk : ¬k = k2 := by
        intro he
        subst he
        exact hnd2.1 (mem_keysOf_of_pair ht)
      simp [lookupV, hk, lookupV_of_pair_nodup t hnd2.2 ht]

end CheckSlaves

namespace CpuRamMonitor

/-- Control endpoints of the self-monitoring push service. -/
def paths : List String := ["/start-monitoring", "/end-monitoring"]

/-- Source `HTTPHandler.do_POST` as a function of the `monitoring_active`
flag and the request path, returning the HTTP status code, the response body,
and the new `monitoring_active` flag. -/
def do_POST (active : Bool) (path : String) : Nat × String × Bool :=
  if path ∉ paths then (404, "Path not found\n", active)
  else if path = "/start-monitoring" then
    if active then (405, "Monitoring is already active\n", active)
    else (200, "Success", true)
  else (200, "Success", false)

end CpuRamMonitor

example : CpuRamMonitor.do_POST true "/start-monitoring" =
    (405, "Monitoring is already active\n", true) := by decide

example : CheckSlaves.write_to_file [("8", ["h1"])] = Except.error "KeyError" := by rfl

example : CheckSlaves.sortHosts ["b", "a", "c"] = ["a", "b", "c"] := by decide

open CheckSlaves

/-! Claims. -/

/-- C3: each version probe returns the captured group of the first match of
its single-line marker pattern, or the sentinel value when no match exists,
and never fails (it is a total function); in particular, on the input
`Hadoop 2.7.3\nSome other line` the platform probe returns `2.7.3`. -/
theorem c3_probe_first_match_or_sentinel :
    (∀ output : String,
      (findAllJava output = [] ∧ get_java_version output = failSentinel) ∨
      ∃ g rest, findAllJava output = g :: rest ∧ get_java_version output = g) ∧
    (∀ output : String,
      (findAllHadoop output = [] ∧ get_hadoop_version output = failSentinel) ∨
      ∃ g rest, findAllHadoop output = g :: rest ∧ get_hadoop_version output = g) ∧
    get_hadoop_version "Hadoop 2.7.3\nSome other line" = "2.7.3" := by
  refine ⟨fun output => ?_, fun output => ?_, by decide⟩
  · rcases h : findAllJava output with _ | ⟨g, rest⟩
    · exact Or.inl ⟨rfl, by simp [get_java_version, h]⟩
    · exact Or.inr ⟨g, rest, rfl, by simp [get_java_version, h]⟩
  · rcases h : findAllHadoop output with _ | ⟨g, rest⟩
    · exact Or.inl ⟨rfl, by simp [get_hadoop_version, h]⟩
    · exact Or.inr ⟨g, rest, rfl, by simp [get_hadoop_version, h]⟩

/-- C7: the clock-skew check flags a worker exactly when the absolute value
of its measured difference is at least 20000 ms (the boundary is inclusive:
exactly 20000 is flagged), and the run fails, after every worker has been
examined, exactly when some worker was flagged. -/
theorem c7_skew_threshold_inclusive :
    (∀ d : Int, skewFlagged d = true ↔ 20000 ≤ |d|) ∧
    (∀ skews : List (String × Int),
      (∃ msg, check_time_skew skews = Except.error msg) ↔
        ∃ p ∈ skews, skewFlagged p.2 = true) ∧
    skewFlagged 20000 = true := by
  refine ⟨fun d => ?_, fun skews => ?_, by decide⟩
  · rw [show skewFlagged d = decide (20000 ≤ d.natAbs) from rfl, decide_eq_true_iff,
      Int.abs_eq_natAbs]
    omega
  · by_cases h : skews.any (fun p => skewFlagged p.2) = true
    · simp only [check_time_skew, h, if_true]
      simp only [List.any_eq_true] at h
      simpa using h
    · simp only [check_time_skew, h, if_false]
      simp only [List.any_eq_true] at h
      simpa using h

/-- C8: for the self-monitoring push service, a POST to the start endpoint
while monitoring is already active is rejected (status 405 with the
already-active message, not the 200 success) and the monitoring flag stays
active; a POST to any path other than the two control endpoints is rejected
as not-found (status 404). -/
theorem c8_monitor_conflict_and_not_found :
    (CpuRamMonitor.do_POST true "/start-monitoring" =
      (405, "Monitoring is already active\n", true) ∧ (405 : Nat) ≠ 200) ∧
    ∀ (active : Bool) (path : String), path ∉ CpuRamMonitor.paths →
      CpuRamMonitor.do_POST active path = (404, "Path not found\n", active) := by
  refine ⟨⟨by decide, by decide⟩, fun active path hp => ?_⟩
  simp [CpuRamMonitor.do_POST, hp]

/-- C8 witness: a POST to an unrecognized path gets a 404 and leaves the
flag unchanged. -/
theorem c8_witness :
    CpuRamMonitor.do_POST false "/other" = (404, "Path not found\n", false) :=
  c8_monitor_conflict_and_not_found.2 false "/other" (by decide)

/-- C9: on a dict containing the `"none"` key, `add_to_dict` appends the host
to exactly one bucket, the `"none"` bucket when the version is empty and the
bucket named by the version otherwise (created with the host as sole member
when absent), and every other bucket is unchanged. -/
theorem c9_add_to_dict_frame :
    ∀ (version host : String) (dic : VersionMap), "none" ∈ keysOf dic →
      lookupV (if version = "" then "none" else version)
          (add_to_dict version host dic) =
        some ((lookupV (if version = "" then "none" else version) dic).getD []
          ++ [host]) ∧
      ∀ k, k ≠ (if version = "" then "none" else version) →
        lookupV k (add_to_dict version host dic) = lookupV k dic :=
  fun version host _dic hm =>
    ⟨add_to_dict_lookup_target version host hm,
     fun k hk => add_to_dict_lookup_ne version host k hk⟩

/-- C9 witness: adding version `8` of host `h1` to `{"none": []}` creates the
`8` bucket with `h1` as sole member and leaves the `"none"` bucket unchanged. -/
theorem c9_witness :
    lookupV (if "8" = "" then "none" else "8")
        (add_to_dict "8" "h1" [("none", [])]) =
      some ((lookupV (if "8" = "" then "none" else "8") [("none", [])]).getD []
        ++ ["h1"]) ∧
    lookupV "none" (add_to_dict "8" "h1" [("none", [])]) =
      lookupV "none" [("none", [])] :=
  ⟨(c9_add_to_dict_frame "8" "h1" [("none", [])] (by decide)).1,
   (c9_add_to_dict_frame "8" "h1" [("none", [])] (by decide)).2 "none" (by decide)⟩

/-- When every probe thread completes its insertions, each map does total
one entry per worker plus the master's seed, whatever interleaving the lock
admitted — the invariant the spec states, restored exactly when no thread
dies. -/
theorem totalCount_inventory_complete :
    ∀ (workers order : List String) (masterHost masterVer : String)
      (oracle : String → Option String),
      order.Perm workers → (∀ w ∈ order, oracle w ≠ none) →
      masterVer ≠ "none" →
      totalCount (inventoryMap masterVer masterHost oracle order) =
        workers.length + 1 := by
  intro workers order masterHost masterVer oracle hperm hall hmv
  rw [inventoryMap, totalCount_foldl oracle order _
      (keysOf_seedMap_none masterVer masterHost) hall,
    totalCount_seedMap masterVer masterHost hmv, hperm.length_eq]
  omega

/-- C2: the code violates the claimed invariant.  `check_slave_vers` has no
exception handling, so a worker whose probe thread dies from an uncaught
exception before the two insertions (`ssh.connect` raising, or the
`which hadoop` read having no second line so `output.split("\n")[1]` raises
`IndexError`) is silently absent from both maps and the join still returns:
with the single worker `w1` whose thread died, each map keeps only the
master's seed entry, total 1 instead of `len(workers) + 1 = 2`. -/
theorem c2_dead_thread_drops_worker :
    totalCount (inventoryMap "8" "m" (fun _ => none) ["w1"]) = 1 ∧
    totalCount (inventoryMap "2.7" "m" (fun _ => none) ["w1"]) = 1 ∧
    ["w1"] ≠ ([] : List String) ∧
    ¬(totalCount (inventoryMap "8" "m" (fun _ => none) ["w1"]) =
      List.length ["w1"] + 1) := by
  decide

/-- C1: for every version map holding a `"none"` bucket (a set of hostnames,
so without duplicates), the reconciliation step aborts the run exactly when
that bucket is non-empty, and the failure message appends to its fixed text
the bucket's hostnames sorted lexicographically, joined by the separator, so
that every hostname of the bucket appears in it exactly once. -/
theorem c1_reconcile_iff_sorted_message :
    ∀ (msgStart sep : String) (m : VersionMap) (bucket : List String),
      lookupV "none" m = some bucket → bucket.Nodup →
      ((∃ msg, reconcile msgStart sep m = Except.error msg) ↔ bucket ≠ []) ∧
      ∀ msg, reconcile msgStart sep m = Except.error msg →
        msg = msgStart ++ String.intercalate sep (sortHosts bucket) ∧
        (sortHosts bucket).Pairwise (fun a b => strLe a b = true) ∧
        (∀ h, h ∈ sortHosts bucket ↔ h ∈ bucket) ∧
        ∀ h ∈ bucket, (sortHosts bucket).count h = 1 := by
  intro msgStart sep m bucket hl hnd
  by_cases hb : bucket = []
  · subst hb
    simp only [reconcile, hl, if_pos rfl]
    constructor
    · constructor
      · rintro ⟨msg, hmsg⟩
        exact Except.noConfusion hmsg
      · intro h
        exact absurd rfl h
    · intro msg hmsg
      exact Except.noConfusion hmsg
  · simp only [reconcile, hl, if_neg hb]
    refine ⟨⟨fun _ => hb, fun _ => ⟨_, rfl⟩⟩, fun msg hmsg => ?_⟩
    have hm2 : msg = msgStart ++ String.intercalate sep (sortHosts bucket) :=
      (Except.error.injEq _ _ ▸ congrArg id hmsg) ▸ rfl
    refine ⟨?_, sortHosts_pairwise bucket, fun h => sortHosts_mem bucket h, ?_⟩
    · cases hmsg
      rfl
    · intro h hmem
      rw [sortHosts_count]
      exact List.count_eq_one_of_mem hnd hmem

/-- C1 witness: reconciling a map whose `"none"` bucket is `["b", "a"]`
aborts with the sorted, comma-joined hostname list in the message. -/
theorem c1_witness :
    "P: a,b" = "P: " ++ String.intercalate "," (sortHosts ["b", "a"]) :=
  (((c1_reconcile_iff_sorted_message "P: " "," [("none", ["b", "a"])] ["b", "a"]
    rfl (by decide)).2) "P: a,b" rfl).1

/-- C10: on a dict with pairwise-distinct keys, `write_to_file` raises
`KeyError`, before writing anything, exactly when the dict has no `"none"`
key; when the key is present the `"none"` bucket is removed from the caller's
dict before rendering, so the produced text renders the remaining buckets. -/
theorem c10_write_keyerror_iff :
    ∀ m : VersionMap, keysNodup m →
      ((write_to_file m = Except.error "KeyError") ↔ lookupV "none" m = none) ∧
      ∀ m2 text, write_to_file m = Except.ok (m2, text) →
        lookupV "none" m2 = none ∧
        (∀ k, k ≠ "none" → lookupV k m2 = lookupV k m) ∧
        text = renderMap m2 := by
  intro m hnd
  rcases hdel : delKeyFirst "none" m with _ | m2
  · have hnone : lookupV "none" m = none :=
      (lookupV_eq_none_iff "none" m).mpr ((delKeyFirst_eq_none_iff "none" m).mp hdel)
    refine ⟨⟨fun _ => hnone, fun _ => by simp [write_to_file, hdel]⟩, ?_⟩
    intro m2 text hok
    rw [write_to_file, hdel] at hok
    exact Except.noConfusion hok
  · have hmem : "none" ∈ keysOf m := by
      by_contra hmem
      rw [(delKeyFirst_eq_none_iff "none" m).mpr hmem] at hdel
      exact Option.noConfusion hdel
    rcases lookupV_isSome_of_mem hmem with ⟨v, hv⟩
    constructor
    · constructor
      · intro he
        rw [write_to_file, hdel] at he
        exact Except.noConfusion he
      · intro he
        rw [hv] at he
        exact Option.noConfusion he
    · intro m3 text hok
      rw [write_to_file, hdel, Except.ok.injEq, Prod.mk.injEq] at hok
      rcases hok with ⟨hm3, htext⟩
      subst hm3
      exact ⟨delKeyFirst_lookup_self "none" m m2 hnd hdel,
        fun k hk => delKeyFirst_lookup_ne "none" k hk m m2 hdel,
        htext.symm⟩

/-- C10 witness: a dict without the `"none"` key makes the writer raise
`KeyError` and produce nothing. -/
theorem c10_witness :
    (write_to_file [("8", ["h1"])] = Except.error "KeyError") ↔
      lookupV "none" [("8", ["h1"])] = none :=
  (c10_write_keyerror_iff [("8", ["h1"])] (by decide)).1

/-- Converse of `lookupV`: a successful lookup names an entry of the dict. -/
theorem lookupV_mem_pair :
    ∀ (m : VersionMap) (k : String) (v : List String),
      lookupV k m = some v → (k, v) ∈ m
  | [], k, v, h => by simp [lookupV] at h
  | (k2, w) :: t, k, v, h => by
    by_cases hk : k = k2
    · subst hk
      simp only [lookupV, if_true, eq_self_iff_true, ite_true, Option.some.injEq] at h
      subst h
      exact List.mem_cons_self _ _
    · simp only [lookupV, hk, if_false] at h
      exact List.mem_cons_of_mem _ (lookupV_mem_pair t k v h)

/-- C6 counterexample: on the output `Hadoop ` the pattern matches with an
empty captured group, so the probe successfully extracts a version and still
returns exactly the value it returns on extraction failure. -/
theorem c6_counterexample :
    findAllHadoop "Hadoop " ≠ [] ∧ get_hadoop_version "Hadoop " = failSentinel := by
  decide

/-- C6 amended: the failure sentinel is the empty string, and a successful
extraction whose captured group is empty collides with it; the sentinel is
distinguished from every non-empty extracted version: whenever a probe's
pattern matches with a non-empty first group, the probe's result differs
from the sentinel. -/
theorem c6_nonempty_extraction_distinguished :
    ∀ (output g : String) (rest : List String),
      (findAllJava output = g :: rest → g ≠ "" →
        get_java_version output ≠ failSentinel) ∧
      (findAllHadoop output = g :: rest → g ≠ "" →
        get_hadoop_version output ≠ failSentinel) := by
  intro output g rest
  constructor
  · intro h hg
    simpa [get_java_version, h, failSentinel] using hg
  · intro h hg
    simpa [get_hadoop_version, h, failSentinel] using hg

/-- C6 witness: an extracted non-empty platform version is not the sentinel. -/
theorem c6_witness : get_hadoop_version "Hadoop 2.7.3" ≠ failSentinel :=
  (c6_nonempty_extraction_distinguished "Hadoop 2.7.3" "2.7.3" []).2
    (by decide) (by decide)

/-- C5 counterexample: the report-writing call is not read-only: on the map
`{"none": [], "8": ["h"]}` it succeeds and the map afterwards has lost its
`"none"` bucket, so its contents differ from before the call. -/
theorem c5_counterexample :
    write_to_file [("none", []), ("8", ["h"])] =
      Except.ok ([("8", ["h"])], renderMap [("8", ["h"])]) ∧
    ([("8", ["h"])] : VersionMap) ≠ [("none", []), ("8", ["h"])] :=
  ⟨rfl, by decide⟩

/-- C5 amended: the maps are read-only during the reconciliation check (a
successful reconcile returns the map unchanged), while the report-writing
call removes exactly the `"none"` bucket from the caller's map and leaves
every other bucket unchanged. -/
theorem c5_reconcile_readonly_write_removes_none :
    (∀ (msgStart sep : String) (m m2 : VersionMap),
      reconcile msgStart sep m = Except.ok m2 → m2 = m) ∧
    ∀ (m m2 : VersionMap) (text : String), keysNodup m →
      write_to_file m = Except.ok (m2, text) →
      lookupV "none" m2 = none ∧
      ∀ k, k ≠ "none" → lookupV k m2 = lookupV k m := by
  constructor
  · intro msgStart sep m m2 hok
    rcases hl : lookupV "none" m with _ | bucket
    · simp only [reconcile, hl] at hok
      exact Except.noConfusion hok
    · simp only [reconcile, hl] at hok
      by_cases hb : bucket = []
      · rw [if_pos hb] at hok
        injection hok with h
        exact h.symm
      · rw [if_neg hb] at hok
        exact Except.noConfusion hok
  · intro m m2 text hnd hok
    rcases hdel : delKeyFirst "none" m with _ | m3
    · rw [write_to_file, hdel] at hok
      exact Except.noConfusion hok
    · rw [write_to_file, hdel, Except.ok.injEq, Prod.mk.injEq] at hok
      rcases hok with ⟨hm, _⟩
      constructor
      · rw [← hm]
        exact delKeyFirst_lookup_self "none" m m3 hnd hdel
      · intro k hk
        rw [← hm]
        exact delKeyFirst_lookup_ne "none" k hk m m3 hdel

/-- C5 witness: after the writer removed the `"none"` bucket, the `"8"`
bucket still reads the same as before the call. -/
theorem c5_witness :
    lookupV "8" [("8", ["h"])] = lookupV "8" [("none", []), ("8", ["h"])] :=
  (c5_reconcile_readonly_write_removes_none.2 [("none", []), ("8", ["h"])]
    [("8", ["h"])] (renderMap [("8", ["h"])]) (by decide) rfl).2 "8" (by decide)

/-- C4 counterexample: on a map with no `"none"` bucket the report writer
raises `KeyError` and produces no file at all, so writing-then-re-parsing
cannot recover anything. -/
theorem c4_counterexample :
    lookupV "none" [("8", ["h1"])] = none ∧
    write_to_file [("8", ["h1"])] = Except.error "KeyError" :=
  ⟨rfl, rfl⟩

/-- C4 amended: for every map that does contain a `"none"` bucket (as the
writer demands), with distinct keys and entries the plain-text format can
represent (no newline in a version or hostname, no hostname spelling the
separator line), writing and then re-parsing the produced file recovers
exactly the (version, lexicographically-sorted hostname list) pairs of the
non-`"none"` buckets, and re-parsing what any insertion-order permutation of
the map writes recovers the same pairs up to order. -/
theorem c4_roundtrip_with_none_bucket :
    ∀ m : VersionMap, keysNodup m → "none" ∈ keysOf m →
      (∀ p ∈ m, p.1 ≠ "none" → wellFormedEntry p) →
      ∃ m2 text, write_to_file m = Except.ok (m2, text) ∧
        parseReport text = m2.map (fun p => (p.1, sortHosts p.2)) ∧
        ∀ m' m2' text', m'.Perm m → write_to_file m' = Except.ok (m2', text') →
          (parseReport text').Perm (parseReport text) := by
  intro m hnd hmem hwf
  rcases hdel : delKeyFirst "none" m with _ | m2
  · exact absurd ((delKeyFirst_eq_none_iff "none" m).mp hdel) (fun h => h hmem)
  · have hwrite : write_to_file m = Except.ok (m2, renderMap m2) := by
      rw [write_to_file, hdel]
    rcases delKeyFirst_perm "none" m m2 hdel with ⟨v, hv, hpermm⟩
    have hm2sub : ∀ p ∈ m2, p ∈ m := fun p hp =>
      hpermm.mem_iff.mpr (List.mem_cons_of_mem _ hp)
    have hnone2 : lookupV "none" m2 = none :=
      delKeyFirst_lookup_self "none" m m2 hnd hdel
    have hkeym2 : ∀ p ∈ m2, p.1 ≠ "none" := by
      intro p hp he
      exact (lookupV_eq_none_iff "none" m2).mp hnone2 (he ▸ mem_keysOf_of_pair
        (show (p.1, p.2) ∈ m2 from hp))
    have hwf2 : ∀ p ∈ m2, wellFormedEntry p := fun p hp =>
      hwf p (hm2sub p hp) (hkeym2 p hp)
    refine ⟨m2, renderMap m2, hwrite, parseReport_renderMap m2 hwf2, ?_⟩
    intro m' m2' text' hpm hok
    rcases hdel' : delKeyFirst "none" m' with _ | m3
    · rw [write_to_file, hdel'] at hok
      exact Except.noConfusion hok
    · rw [write_to_file, hdel', Except.ok.injEq, Prod.mk.injEq] at hok
      rcases hok with ⟨_, htext⟩
      rcases delKeyFirst_perm "none" m' m3 hdel' with ⟨v', hv', hpermm'⟩
      have hv'memm : ("none", v') ∈ m :=
        hpm.mem_iff.mp (lookupV_mem_pair m' "none" v' hv')
      have hveq : v' = v := by
        have h2 := lookupV_of_pair_nodup m hnd hv'memm
        rw [hv] at h2
        injection h2 with h3
        exact h3.symm
      have hcons : (("none", v) :: m3).Perm (("none", v) :: m2) :=
        (hveq ▸ hpermm').symm.trans (hpm.trans hpermm)
      have hm3m2 : m3.Perm m2 := hcons.cons_inv
      have hwf3 : ∀ p ∈ m3, wellFormedEntry p := fun p hp =>
        hwf2 p (hm3m2.mem_iff.mp hp)
      rw [← htext, parseReport_renderMap m3 hwf3, parseReport_renderMap m2 hwf2]
      exact hm3m2.map _

/-- C4 witness: writing the map `{"none": [], "8": ["b", "a"]}` and
re-parsing the file recovers the `8` bucket with its hosts sorted. -/
theorem c4_witness :
    parseReport (renderMap [("8", ["b", "a"])]) = [("8", ["a", "b"])] := by
  rcases c4_roundtrip_with_none_bucket [("none", []), ("8", ["b", "a"])]
    (by decide) (by decide) (by decide) with ⟨m2, text, hw, hp, _⟩
  have he : write_to_file [("none", []), ("8", ["b", "a"])] =
      Except.ok ([("8", ["b", "a"])], renderMap [("8", ["b", "a"])]) := rfl
  rw [he, Except.ok.injEq, Prod.mk.injEq] at hw
  rcases hw with ⟨hm2, htext⟩
  subst hm2
  subst htext
  rw [hp]
  decide
